import Mathlib

/-!
Verification of the sharedmem parallel execution engine
(`src/src/__init__.py` of the sppalkia/sharedmem repository).

The Python source is shallowly embedded.  The worker loop (the nested
`slave` function of `Pool.map`), the master collecting loop, the error
report and result assembly, the serial path `Pool.map_debug`, the
partitioners `split` / `array_split`, the helper
`__round_to_power_of_two`, and the module level `zipsplit` are
translated to executable Lean functions.  Machine behaviour the claims
quantify over (which worker pulls which task, the arrival order of
result records on the result queue) is represented by explicit
parameters constrained by permutation hypotheses.  A work function
that can raise is modelled as a function into `Except`; an `error`
value models a raised exception.
-/

deriving instance DecidableEq for Except

namespace Sharedmem

/-- A captured worker exception: the exception value together with the
formatted traceback string (`traceback.format_exc()`) that the slave
puts on the result queue (line 268 of the source). -/
structure Captured where
  exn : String
  trace : String
deriving DecidableEq

/-- One record on the result queue, as read by the master loop of
`Pool.map` (lines 300-311): a `(i, out)` pair from a successful item,
an `(exception, traceback)` pair from a failed item, or the
`(None, None)` pair a dead worker puts for an item it drains without
executing. -/
inductive Record (V : Type) where
  | success : Nat → V → Record V
  | failure : Captured → Record V
  | dead : Record V
deriving DecidableEq

/-- The slave loop of `Pool.map` (lines 249-273), run over the list of
work items the worker pulls from the task queue (the sentinel ends the
list).  Applying the work function to the item with index `i` is
abstracted as `f i`.  The result is the list of records the worker
puts on the result queue, paired with the list of items it actually
executed.  The boolean argument is the `dead` flag: while it is set
the worker emits one dead record per item without executing it; on the
first raised error the worker emits the captured error once and flips
the flag. -/
def slave {V : Type} (f : Nat → Except Captured V) : Bool → List Nat → List (Record V) × List Nat
  | _, [] => ([], [])
  | true, _ :: rest =>
    let p := slave f true rest
    (Record.dead :: p.1, p.2)
  | false, i :: rest =>
    match f i with
    | Except.ok out =>
      let p := slave f false rest
      (Record.success i out :: p.1, i :: p.2)
    | Except.error e =>
      let p := slave f true rest
      (Record.failure e :: p.1, i :: p.2)

/-- The collecting loop of `Pool.map` (lines 298-311), processing the
result records in arrival order: successes are appended to `R` (after
the caller supplied callback, modelled by `cb`; `callback=None` is
`cb = id`), captured errors are appended to `error`, dead records are
dropped. -/
def collect {V : Type} (cb : V → V) : List (Record V) → List (Nat × V) × List Captured
  | [] => ([], [])
  | Record.success i v :: rest =>
    let p := collect cb rest
    ((i, cb v) :: p.1, p.2)
  | Record.failure e :: rest =>
    let p := collect cb rest
    (p.1, e :: p.2)
  | Record.dead :: rest => collect cb rest

/-- Projection of a record to its captured error, if it is a failure. -/
def failureOf {V : Type} : Record V → Option Captured
  | Record.failure e => some e
  | _ => none

/-- Projection of a record to its index/value pair, if it is a
success, with the callback applied to the value. -/
def successOf {V : Type} (cb : V → V) : Record V → Option (Nat × V)
  | Record.success i v => some (i, cb v)
  | _ => none

/-- The order `heapq` uses on the collected `(index, value)` pairs:
comparison on the index.  (`heapq` compares the tuples themselves;
since every index occurs at most once the comparison is decided by the
first component.) -/
def pairLE {V : Type} (a b : Nat × V) : Prop := a.1 ≤ b.1

instance {V : Type} : DecidableRel (pairLE (V := V)) := fun a b => Nat.decLe a.1 b.1

instance {V : Type} : IsTotal (Nat × V) pairLE := ⟨fun a b => Nat.le_total a.1 b.1⟩

instance {V : Type} : IsTrans (Nat × V) pairLE := ⟨fun _ _ _ h1 h2 => Nat.le_trans h1 h2⟩

/-- The tail of `Pool.map` (lines 335-343): if any errors were
collected, raise a single exception whose message is
`'%d errors received\n' % len(error)` followed by the first collected
error's traceback; otherwise return the values, reordered by original
index when `ordered=True` (the `heapq` heapify/pop-all loop is a sort
by index) and in arrival order otherwise. -/
def assemble {V : Type} (ordered : Bool) (R : List (Nat × V)) (error : List Captured) :
    Except String (List V) :=
  match error with
  | e :: rest => Except.error (toString (e :: rest).length ++ " errors received\n" ++ e.trace)
  | [] =>
    if ordered then Except.ok ((List.insertionSort pairLE R).map Prod.snd)
    else Except.ok (R.map Prod.snd)

/-- `Pool.map_debug` (lines 345-347): run the work function serially
over the sequence in the caller's context; the first raised error
propagates unchanged.  Note the parallel path's `callback` parameter
is not forwarded to this path (line 241/243 call it without
`callback`). -/
def map_debug {A E V : Type} (work : A → Except E V) : List A → Except E (List V)
  | [] => Except.ok []
  | x :: rest =>
    match work x with
    | Except.error e => Except.error e
    | Except.ok v =>
      match map_debug work rest with
      | Except.error e => Except.error e
      | Except.ok vs => Except.ok (v :: vs)

/-- The input sequence of `Pool.map`: a length (`len(sequence)`) and,
when the sequence supports random access by integer index, the
`__getitem__` accessor; `getitem = none` models a sequence without
`__getitem__`. -/
structure PySequence (A : Type) where
  length : Nat
  getitem : Option (Nat → A)

/-- Entry of `Pool.map` in parallel mode (lines 245-343): the
indexability check of lines 246-247 runs first; only then are the
items enqueued, the workers spawned (their task lists `ws`) and the
records collected and assembled.  The second component counts the work
function invocations that happen (zero when the check fails). -/
def Pool_map {A V : Type} (workfunc : A → Except Captured V) (cb : V → V) (ordered : Bool)
    (seq : PySequence A) (ws : List (List Nat)) : Except String (List V) × Nat :=
  match seq.getitem with
  | none => (Except.error "can only take a slicable sequence", 0)
  | some get =>
    let f := fun i => workfunc (get i)
    let recs := (ws.map (fun w => (slave f false w).1)).flatten
    let execs := (ws.map (fun w => (slave f false w).2.length)).sum
    (assemble ordered (collect cb recs).1 (collect cb recs).2, execs)

/-- `section_sizes` of `array_split` (lines 654-657): with
`Neach_section, extras = divmod(Ntotal, Nsections)`, the sizes are
`extras` copies of `Neach_section + 1` followed by
`Nsections - extras` copies of `Neach_section` (the leading `0` of the
Python list is the first cumulative division point and is folded into
the slicing below). -/
def section_sizes (Ntotal Nsections : Nat) : List Nat :=
  List.replicate (Ntotal % Nsections) (Ntotal / Nsections + 1) ++
    List.replicate (Nsections - Ntotal % Nsections) (Ntotal / Nsections)

/-- Successive slicing of a list at the cumulative division points of a
size list: chunk `i` is `ary[div_points[i]:div_points[i+1]]`, which is
the same as taking `sizes[i]` elements and dropping them before the
next chunk. -/
def chunksOf {A : Type} : List Nat → List A → List (List A)
  | [], _ => []
  | s :: ss, l => l.take s :: chunksOf ss (l.drop s)

/-- `array_split` (lines 619-666) for an integer number of sections
along axis 0, on a list model of the array. -/
def array_split {A : Type} (ary : List A) (nsections : Nat) : List (List A) :=
  chunksOf (section_sizes ary.length nsections) ary

/-- Resolution of `nchunks` inside the module level `split`
(lines 459-464): an explicit `nchunks` wins; with neither given it is
`cpu_count() * 2`; with only `chunksize` given it is `int(L /
chunksize)`, bumped to 1 when that is 0. -/
def split_nchunks (L ncpu : Nat) : Option Nat → Option Nat → Nat
  | some n, _ => n
  | none, none => ncpu * 2
  | none, some chunksize =>
    let n := L / chunksize
    if n = 0 then 1 else n

/-- `Pool.split` (lines 222-225): when neither `nchunks` nor
`chunksize` is given, `nchunks` is set to the pool's worker count
`self.np` before delegating to the module level `split`. -/
def Pool_split_nchunks (np L ncpu : Nat) (nchunks chunksize : Option Nat) : Nat :=
  let nchunks := if nchunks = none ∧ chunksize = none then some np else nchunks
  split_nchunks L ncpu nchunks chunksize

/-- One argument of `split` (lines 446-453): tuples and scalars are
broadcast, everything else is treated as an array-like with a length. -/
inductive SplitArg (A B : Type) where
  | broadcast : B → SplitArg A B
  | arraylike : List A → SplitArg A B
deriving DecidableEq

/-- The chunked form of one argument produced by `split`
(lines 466-474): a repeated iterator for broadcast items, the
`array_split` chunks otherwise. -/
inductive SplitChunks (A B : Type) where
  | repeated : B → SplitChunks A B
  | chunks : List (List A) → SplitChunks A B
deriving DecidableEq

/-- The two synchronous failures of `split`: the explicit
`ValueError` for mismatched lengths (line 456) and the `IndexError`
that `L = L[0]` (line 457) raises when no array-like argument is
present and `L` is empty. -/
inductive SplitError where
  | lengthMismatch : SplitError
  | indexError : SplitError
deriving DecidableEq

/-- `numpy.diff(L).any()` on the list of array-like lengths: true when
some adjacent pair differs (combined with the `len(L) > 0` guard; both
are false on empty and singleton lists). -/
def anyAdjDiff : List Nat → Bool
  | a :: b :: rest => (a != b) || anyAdjDiff (b :: rest)
  | _ => false

/-- The lengths of the array-like arguments, in order (the Python
`L` array of line 454). -/
def lengthsOf {A B : Type} (args : List (SplitArg A B)) : List Nat :=
  args.filterMap fun a =>
    match a with
    | SplitArg.arraylike l => some l.length
    | SplitArg.broadcast _ => none

/-- Chunking of one argument in the result loop of `split`
(lines 466-474). -/
def splitItem {A B : Type} (nchunks : Nat) : SplitArg A B → SplitChunks A B
  | SplitArg.broadcast v => SplitChunks.repeated v
  | SplitArg.arraylike l => SplitChunks.chunks (array_split l nchunks)

/-- The module level `split` (lines 436-474) after `nchunks`
resolution: check the array-like lengths for a mismatch
(`ValueError`), then read `L[0]` (an `IndexError` when there is no
array-like argument), then chunk every argument. -/
def split_model {A B : Type} (args : List (SplitArg A B)) (nchunks : Nat) :
    Except SplitError (List (SplitChunks A B)) :=
  if anyAdjDiff (lengthsOf args) then Except.error SplitError.lengthMismatch
  else
    match lengthsOf args with
    | [] => Except.error SplitError.indexError
    | _ :: _ => Except.ok (args.map (splitItem nchunks))

/-- The bit smearing sequence of `__round_to_power_of_two`
(lines 521-526): after the six or-shift steps every bit position below
the highest set bit of the argument is set, provided the argument fits
in 64 bits. -/
def smear64 (m : Nat) : Nat :=
  let a := m ||| m >>> 1
  let b := a ||| a >>> 2
  let c := b ||| b >>> 4
  let d := c ||| c >>> 8
  let e := d ||| d >>> 16
  e ||| e >>> 32

/-- `__round_to_power_of_two` (lines 517-527): `0` maps to `0`, a
power of two maps to itself (the `i & (i - 1) == 0` test), otherwise
smear the bits of `i - 1` and add one. -/
def round_to_power_of_two (i : Nat) : Nat :=
  if i = 0 then i
  else if i &&& (i - 1) = 0 then i
  else smear64 (i - 1) + 1

/-- The chunk count chosen by `argsort` (lines 556-558): `none` when
`cpu_count() <= 1` (the sequential fallback), otherwise
`__round_to_power_of_two(cpu_count()) * 4`. -/
def argsort_nchunks (ncpu : Nat) : Option Nat :=
  if ncpu ≤ 1 then none else some (round_to_power_of_two ncpu * 4)

/-- The names bound at module level of `src/src/__init__.py` (imports,
`from` imports, module globals, and top level `def`/`class`
statements), the global scope in which the module level `zipsplit`
body runs.  No Python builtin is named `self` either. -/
def module_names : List String :=
  ["mp", "numpy", "os", "threading", "queue", "ctypes", "traceback", "copy_reg",
   "signal", "itertools", "ctypeslib", "RawArray", "cycle", "zip", "repeat",
   "warn", "heapq", "__shmdebug__", "__timeout__", "set_debug", "set_timeout",
   "cpu_count", "Pool", "__unpickle__", "__pickle__", "SharedMemArray",
   "empty_like", "empty", "copy", "wrap", "zipsplit", "split", "fromfile",
   "tofile", "__round_to_power_of_two", "argsort", "take", "array_split"]

/-- The parameters of the module level `zipsplit` (line 433), its
local scope. -/
def zipsplit_params : List String := ["list", "nchunks", "chunksize", "axis"]

/-- The names the body `zip(*self.split(list, nchunks, chunksize,
axis))` (line 434) loads, in evaluation order: the callee `zip` first,
then `self`, then the arguments of the inner call. -/
def zipsplit_body_names : List String :=
  ["zip", "self", "list", "nchunks", "chunksize", "axis"]

/-- Python name resolution for a loaded name: locals, then the module
globals; the first name found in neither raises `NameError` at its
load, before anything after it is evaluated. -/
def firstUnresolved (locals globals : List String) : List String → Option String
  | [] => none
  | n :: rest =>
    if locals.contains n || globals.contains n then firstUnresolved locals globals rest
    else some n

/-- Evaluation of the module level `zipsplit` body up to its first
unresolvable name: `error n` models the `NameError` on `n`, raised
before any chunk is produced; `ok` means every name resolves. -/
def zipsplit_module_run : Except String Unit :=
  match firstUnresolved zipsplit_params module_names zipsplit_body_names with
  | some n => Except.error n
  | none => Except.ok ()

/-- The same resolution for the body of the method `Pool.zipsplit`
(lines 219-220), whose scope additionally binds `self`. -/
def Pool_zipsplit_run : Except String Unit :=
  match firstUnresolved ("self" :: zipsplit_params) module_names zipsplit_body_names with
  | some n => Except.error n
  | none => Except.ok ()

/-! ### Helper lemmas -/

theorem sum_section_sizes (t n : Nat) (hn : 0 < n) : (section_sizes t n).sum = t := by
  unfold section_sizes
  have hmod : t % n < n := Nat.mod_lt _ hn
  have hdm : n * (t / n) + t % n = t := Nat.div_add_mod t n
  have hle : (t % n) * (t / n) ≤ n * (t / n) :=
    Nat.mul_le_mul_right _ (Nat.le_of_lt hmod)
  rw [List.sum_append, List.sum_replicate, List.sum_replicate, smul_eq_mul, smul_eq_mul,
    Nat.mul_succ, Nat.sub_mul]
  omega

theorem length_section_sizes (t n : Nat) (hn : 0 < n) : (section_sizes t n).length = n := by
  unfold section_sizes
  have hmod : t % n < n := Nat.mod_lt _ hn
  rw [List.length_append, List.length_replicate, List.length_replicate]
  omega

theorem chunksOf_map_length {A : Type} :
    ∀ (ss : List Nat) (l : List A), ss.sum ≤ l.length →
      (chunksOf ss l).map List.length = ss := by
  intro ss
  induction ss with
  | nil => intro l h; rfl
  | cons s ss ih =>
    intro l h
    rw [List.sum_cons] at h
    have hs : s ≤ l.length := by omega
    have hrest : ss.sum ≤ (l.drop s).length := by
      rw [List.length_drop]; omega
    simp only [chunksOf, List.map_cons, List.length_take, ih (l.drop s) hrest]
    congr 1
    omega

theorem chunksOf_flatten {A : Type} :
    ∀ (ss : List Nat) (l : List A), (chunksOf ss l).flatten = l.take ss.sum := by
  intro ss
  induction ss with
  | nil => intro l; simp [chunksOf]
  | cons s ss ih =>
    intro l
    simp only [chunksOf, List.flatten_cons, ih (l.drop s), List.sum_cons]
    rw [List.take_add]

theorem chunksOf_length {A : Type} :
    ∀ (ss : List Nat) (l : List A), (chunksOf ss l).length = ss.length := by
  intro ss
  induction ss with
  | nil => intro l; rfl
  | cons s ss ih => intro l; simp [chunksOf, ih]

/-! ### C4: balanced chunking of `array_split` -/

/-- C4: splitting a length `len` array-like into `nchunks > 0` chunks
yields, in order, `len mod nchunks` chunks of `len / nchunks + 1`
elements followed by the remaining chunks of `len / nchunks` elements;
the concatenation of the chunks is the original array (nothing dropped
or duplicated) and exactly `nchunks` chunks are produced, so when
`nchunks > len` the trailing chunks have zero length but are still
present. -/
theorem C4_array_split_balance {A : Type} (l : List A) (n : Nat) (hn : 0 < n) :
    (array_split l n).map List.length
        = List.replicate (l.length % n) (l.length / n + 1) ++
            List.replicate (n - l.length % n) (l.length / n) ∧
    (array_split l n).flatten = l ∧
    (array_split l n).length = n := by
  have hsum : (section_sizes l.length n).sum = l.length := sum_section_sizes _ _ hn
  refine ⟨?_, ?_, ?_⟩
  · rw [array_split, chunksOf_map_length _ _ (by rw [hsum])]
    rfl
  · rw [array_split, chunksOf_flatten, hsum, List.take_length]
  · rw [array_split, chunksOf_length, length_section_sizes _ _ hn]

theorem C4_witness :
    0 < 3 ∧
      (array_split ([0, 1, 2, 3, 4, 5, 6, 7, 8, 9] : List Nat) 3).map List.length = [4, 3, 3] ∧
      (array_split ([0, 1, 2, 3, 4, 5, 6, 7, 8, 9] : List Nat) 3).flatten
        = [0, 1, 2, 3, 4, 5, 6, 7, 8, 9] := by
  refine ⟨by decide, ?_, (C4_array_split_balance [0,1,2,3,4,5,6,7,8,9] 3 (by decide)).2.1⟩
  have h := (C4_array_split_balance ([0,1,2,3,4,5,6,7,8,9] : List Nat) 3 (by decide)).1
  rw [h]; decide

/-! ### C5: `nchunks` defaults -/

/-- C5: through `Pool.split`, when neither `nchunks` nor `chunksize`
is given, `nchunks` defaults to the pool's worker count `np`; when
only `chunksize` is given, `nchunks = max(1, L / chunksize)` with `L`
the common length of the array-like arguments. -/
theorem C5_nchunks_defaults (np L ncpu chunksize : Nat) (hc : 0 < chunksize) :
    Pool_split_nchunks np L ncpu none none = np ∧
    Pool_split_nchunks np L ncpu none (some chunksize) = max 1 (L / chunksize) := by
  constructor
  · rfl
  · show (if L / chunksize = 0 then 1 else L / chunksize) = max 1 (L / chunksize)
    rcases Nat.eq_zero_or_pos (L / chunksize) with h | h
    · rw [h]; decide
    · rw [if_neg (by omega), Nat.max_eq_right h]

theorem C5_witness :
    0 < 4 ∧ Pool_split_nchunks 8 10 6 none none = 8 ∧
      Pool_split_nchunks 8 10 6 none (some 4) = max 1 (10 / 4) :=
  ⟨by decide, (C5_nchunks_defaults 8 10 6 4 (by decide)).1,
    (C5_nchunks_defaults 8 10 6 4 (by decide)).2⟩

/-! ### C8: indexability check of `Pool.map` -/

/-- C8: a sequence without random access by integer index
(`getitem = none`) makes the parallel `Pool.map` fail with the
`TypeError` text of line 247 before any task is executed: the work
function invocation count of the run is zero. -/
theorem C8_indexability {A V : Type} (workfunc : A → Except Captured V) (cb : V → V)
    (ordered : Bool) (seq : PySequence A) (ws : List (List Nat))
    (h : seq.getitem = none) :
    Pool_map workfunc cb ordered seq ws
      = (Except.error "can only take a slicable sequence", 0) := by
  unfold Pool_map
  rw [h]

theorem C8_witness :
    Pool_map (fun n : Nat => (Except.ok n : Except Captured Nat)) id false
        { length := 5, getitem := none } [[0, 1], [2, 3, 4]]
      = (Except.error "can only take a slicable sequence", 0) :=
  C8_indexability (fun n : Nat => (Except.ok n : Except Captured Nat)) id false
    { length := 5, getitem := none } [[0, 1], [2, 3, 4]] rfl

/-! ### Slave loop lemmas -/

theorem slave_dead_run {V : Type} (f : Nat → Except Captured V) :
    ∀ w : List Nat, slave f true w = (w.map (fun _ => Record.dead), []) := by
  intro w
  induction w with
  | nil => rfl
  | cons a t ih => simp [slave, ih]

theorem slave_length {V : Type} (f : Nat → Except Captured V) :
    ∀ (w : List Nat) (d : Bool), ((slave f d w).1).length = w.length := by
  intro w
  induction w with
  | nil => intro d; cases d <;> rfl
  | cons a t ih =>
    intro d
    cases d
    · cases hf : f a <;> simp [slave, hf, ih]
    · simp [slave, ih]

theorem slave_ok_run {V : Type} (f : Nat → Except Captured V) (g : Nat → V) :
    ∀ w : List Nat, (∀ j ∈ w, f j = Except.ok (g j)) →
      slave f false w = (w.map (fun j => Record.success j (g j)), w) := by
  intro w
  induction w with
  | nil => intro h; rfl
  | cons a t ih =>
    intro h
    have ha := h a (List.mem_cons_self a t)
    simp [slave, ha, ih (fun j hj => h j (List.mem_cons_of_mem a hj))]

theorem slave_first_error {V : Type} (f : Nat → Except Captured V) (g : Nat → V) (e : Captured) :
    ∀ (w1 : List Nat) (i : Nat) (w2 : List Nat),
      (∀ j ∈ w1, f j = Except.ok (g j)) → f i = Except.error e →
      slave f false (w1 ++ i :: w2)
        = (w1.map (fun j => Record.success j (g j)) ++
             Record.failure e :: w2.map (fun _ => Record.dead),
           w1 ++ [i]) := by
  intro w1
  induction w1 with
  | nil =>
    intro i w2 h1 h2
    simp [slave, h2, slave_dead_run]
  | cons a t ih =>
    intro i w2 h1 h2
    have ha := h1 a (List.mem_cons_self a t)
    simp [slave, ha, ih i w2 (fun j hj => h1 j (List.mem_cons_of_mem a hj)) h2]

theorem length_flatten_records {V : Type} (f : Nat → Except Captured V) (ws : List (List Nat)) :
    ((ws.map (fun w => (slave f false w).1)).flatten).length = (ws.flatten).length := by
  rw [List.length_flatten, List.length_flatten, List.map_map]
  congr 1
  exact List.map_congr_left fun w _ => slave_length f w false

/-! ### C1: per-item accounting of result records -/

/-- C1: over a parallel `map`/`starmap` run with input indices
`0 .. L-1` distributed over the workers as the task lists `ws`, the
workers put exactly `L` records on the result queue (so the master's
loop of `L` reads consumes them all); a worker whose items are
`w1 ++ i :: w2`, where the items of `w1` succeed and item `i` raises,
emits one success record per item of `w1`, exactly one failure record
(for `i`), and one dead record per item of `w2`; it executes only
`w1 ++ [i]`, never any later item.  Thus every item is accounted for
by exactly one success, failure, or dead record. -/
theorem C1_worker_accounting {V : Type} (f : Nat → Except Captured V) (g : Nat → V) (L : Nat)
    (ws : List (List Nat)) (w1 w2 : List Nat) (i : Nat) (e : Captured)
    (hws : (ws.flatten).Perm (List.range L))
    (hmem : (w1 ++ i :: w2) ∈ ws)
    (hok : ∀ j ∈ w1, f j = Except.ok (g j))
    (hfail : f i = Except.error e) :
    ((ws.map (fun w => (slave f false w).1)).flatten).length = L ∧
    (slave f false (w1 ++ i :: w2)).1
      = w1.map (fun j => Record.success j (g j)) ++
          Record.failure e :: w2.map (fun _ => Record.dead) ∧
    (slave f false (w1 ++ i :: w2)).2 = w1 ++ [i] := by
  have hsplit := slave_first_error f g e w1 i w2 hok hfail
  refine ⟨?_, by rw [hsplit], by rw [hsplit]⟩
  rw [length_flatten_records, hws.length_eq, List.length_range]

theorem C1_witness :
    ((([[0], [1, 2]].map
        (fun w => (slave (fun j => if j = 1 then Except.error ⟨"boom", "tb"⟩
          else Except.ok j) false w).1)).flatten).length = 3 ∧
      (slave (fun j => if j = 1 then Except.error ⟨"boom", "tb"⟩ else Except.ok j)
          false ([] ++ 1 :: [2])).1
        = [].map (fun j => Record.success j j) ++
            Record.failure ⟨"boom", "tb"⟩ :: [2].map (fun _ => Record.dead) ∧
      (slave (fun j => if j = 1 then Except.error ⟨"boom", "tb"⟩ else Except.ok j)
          false ([] ++ 1 :: [2])).2 = [] ++ [1]) :=
  C1_worker_accounting
    (fun j => if j = 1 then Except.error ⟨"boom", "tb"⟩ else Except.ok j)
    (fun j => j) 3 [[0], [1, 2]] [] [2] 1 ⟨"boom", "tb"⟩
    (by decide) (by decide) (by intro j hj; simp at hj) (by rfl)

/-! ### Collecting loop lemmas -/

theorem collect_fst {V : Type} (cb : V → V) :
    ∀ rs : List (Record V), (collect cb rs).1 = rs.filterMap (successOf cb) := by
  intro rs
  induction rs with
  | nil => rfl
  | cons r t ih => cases r <;> simp [collect, successOf, ih]

theorem collect_snd {V : Type} (cb : V → V) :
    ∀ rs : List (Record V), (collect cb rs).2 = rs.filterMap failureOf := by
  intro rs
  induction rs with
  | nil => rfl
  | cons r t ih => cases r <;> simp [collect, failureOf, ih]

theorem filterMap_const_none {A B : Type} :
    ∀ l : List A, l.filterMap (fun _ => (none : Option B)) = [] := by
  intro l
  induction l with
  | nil => rfl
  | cons a t ih => simp [ih]

/-! ### Sorting lemmas for the ordered assembly -/

theorem eq_of_perm_of_pairwise_ltFst {V : Type} :
    ∀ l1 l2 : List (Nat × V), l1.Perm l2 →
      l1.Pairwise (fun a b => a.1 < b.1) → l2.Pairwise (fun a b => a.1 < b.1) → l1 = l2 := by
  intro l1
  induction l1 with
  | nil =>
    intro l2 hp _ _
    exact hp.nil_eq
  | cons a t ih =>
    intro l2 hp h1 h2
    cases l2 with
    | nil => exact absurd hp.eq_nil (by simp)
    | cons b u =>
      rcases List.pairwise_cons.1 h1 with ⟨ha, h1t⟩
      rcases List.pairwise_cons.1 h2 with ⟨hb, h2t⟩
      have hab : a = b := by
        by_contra hne
        have hamem : a ∈ b :: u := hp.subset (List.mem_cons_self a t)
        have hbmem : b ∈ a :: t := hp.symm.subset (List.mem_cons_self b u)
        have ha2 : a ∈ u := by
          rcases List.mem_cons.1 hamem with h | h
          · exact absurd h hne
          · exact h
        have hb2 : b ∈ t := by
          rcases List.mem_cons.1 hbmem with h | h
          · exact absurd h.symm hne
          · exact h
        have k1 := ha b hb2
        have k2 := hb a ha2
        omega
      subst hab
      rw [ih u hp.cons_inv h1t h2t]

theorem sorted_pairs_eq {V : Type} (pairs ref : List (Nat × V)) (hperm : pairs.Perm ref)
    (href : ref.Pairwise (fun a b => a.1 < b.1)) :
    List.insertionSort pairLE pairs = ref := by
  have hs_perm : (List.insertionSort pairLE pairs).Perm pairs := List.perm_insertionSort pairLE pairs
  have hchain : (List.insertionSort pairLE pairs).Perm ref := hs_perm.trans hperm
  have hsorted : (List.insertionSort pairLE pairs).Pairwise pairLE :=
    List.sorted_insertionSort pairLE pairs
  have hne : (List.insertionSort pairLE pairs).Pairwise (fun a b => a.1 ≠ b.1) :=
    (hchain.pairwise_iff (fun hxy => Ne.symm hxy)).2 (href.imp fun h => Nat.ne_of_lt h)
  have hlt : (List.insertionSort pairLE pairs).Pairwise (fun a b => a.1 < b.1) :=
    (hsorted.and hne).imp fun h => Nat.lt_of_le_of_ne h.1 h.2
  exact eq_of_perm_of_pairwise_ltFst _ _ hchain hlt href

/-! ### C2: ordered and unordered result assembly -/

/-- C2: for a pure work function `g` over an input of length `L`, run
in parallel with any distribution `ws` of the indices over the workers
and any arrival order `records` of the emitted result records, the
ordered assembly returns exactly `[g 0, ..., g (L-1)]` with index
`i`'s value at position `i`, and the unordered assembly returns a
permutation of that list. -/
theorem C2_result_assembly {V : Type} (g : Nat → V) (L : Nat)
    (ws : List (List Nat)) (records : List (Record V))
    (hws : (ws.flatten).Perm (List.range L))
    (hrec : records.Perm ((ws.map (fun w =>
        (slave (fun i => Except.ok (g i)) false w).1)).flatten)) :
    assemble true (collect id records).1 (collect id records).2
      = Except.ok ((List.range L).map g) ∧
    ∃ vs, assemble false (collect id records).1 (collect id records).2
        = Except.ok vs ∧ vs.Perm ((List.range L).map g) := by
  have hflat : (ws.map (fun w =>
      (slave (fun i => Except.ok (g i)) false w).1)).flatten
        = (ws.flatten).map (fun j => Record.success j (g j)) := by
    rw [show ws.map (fun w => (slave (fun i => Except.ok (g i)) false w).1)
          = ws.map (fun w => w.map (fun j => Record.success j (g j))) from
        List.map_congr_left (fun w _ =>
          congrArg Prod.fst (slave_ok_run (fun i => Except.ok (g i)) g w (fun j _ => rfl))),
      ← List.map_flatten]
  have hrec2 : records.Perm ((List.range L).map (fun j => Record.success j (g j))) := by
    refine hrec.trans ?_
    rw [hflat]
    exact hws.map _
  have herr : (collect (id : V → V) records).2 = [] := by
    rw [collect_snd]
    have hp := hrec2.filterMap failureOf
    have hz : ((List.range L).map (fun j => Record.success j (g j))).filterMap failureOf
        = [] := by
      rw [List.filterMap_map]
      simp [Function.comp, failureOf, filterMap_const_none]
    rw [hz] at hp
    exact hp.eq_nil
  have hpairs : ((collect (id : V → V) records).1).Perm
      ((List.range L).map (fun j => (j, g j))) := by
    rw [collect_fst]
    have hp := hrec2.filterMap (successOf (id : V → V))
    have hz : ((List.range L).map (fun j => Record.success j (g j))).filterMap
        (successOf (id : V → V)) = (List.range L).map (fun j => (j, g j)) := by
      rw [List.filterMap_map]
      rw [show successOf (id : V → V) ∘ (fun j : Nat => Record.success j (g j))
        = some ∘ (fun j : Nat => (j, g j)) from rfl, List.filterMap_eq_map]
    rw [hz] at hp
    exact hp
  have href : ((List.range L).map (fun j => (j, g j))).Pairwise
      (fun a b : Nat × V => a.1 < b.1) := by
    rw [List.pairwise_map]
    exact List.pairwise_lt_range L
  have hsorted_eq : List.insertionSort pairLE ((collect (id : V → V) records).1)
      = (List.range L).map (fun j => (j, g j)) := sorted_pairs_eq _ _ hpairs href
  constructor
  · rw [herr]
    simp only [assemble, if_true]
    rw [hsorted_eq, List.map_map]
    rfl
  · refine ⟨((collect (id : V → V) records).1).map Prod.snd, ?_, ?_⟩
    · rw [herr]
      simp [assemble]
    · have hm := hpairs.map Prod.snd
      rw [List.map_map] at hm
      exact hm

theorem C2_witness :
    assemble true (collect (id : Nat → Nat) [Record.success 1 1, Record.success 0 0]).1
        (collect (id : Nat → Nat) [Record.success 1 1, Record.success 0 0]).2
      = Except.ok [0, 1] := by
  have h := (C2_result_assembly (fun i => i) 2 [[0, 1]]
      [Record.success 1 1, Record.success 0 0] (by decide) (by decide)).1
  rw [h]
  decide

/-! ### C3: aggregated error report -/

/-- C3: over any arrival stream of result records, if at least one
failure record was collected the engine raises exactly one aggregated
error whose message is the failure count followed by the first
collected failure's traceback text (the other captured errors are not
individually surfaced), and if no failure record was collected no
error is raised. -/
theorem C3_aggregated_error {V : Type} (cb : V → V) (ordered : Bool)
    (records : List (Record V)) :
    (records.filterMap failureOf = [] →
      ∃ vs, assemble ordered (collect cb records).1 (collect cb records).2
        = Except.ok vs) ∧
    (∀ e rest, records.filterMap failureOf = e :: rest →
      assemble ordered (collect cb records).1 (collect cb records).2
        = Except.error (toString (e :: rest).length ++ " errors received\n" ++ e.trace)) := by
  constructor
  · intro h
    have herr : (collect cb records).2 = [] := by rw [collect_snd, h]
    rw [herr]
    cases ordered
    · exact ⟨((collect cb records).1).map Prod.snd, by simp [assemble]⟩
    · exact ⟨(List.insertionSort pairLE ((collect cb records).1)).map Prod.snd,
        by simp [assemble]⟩
  · intro e rest h
    have herr : (collect cb records).2 = e :: rest := by rw [collect_snd, h]
    rw [herr]
    rfl

theorem C3_witness :
    assemble false (collect (fun v : Nat => v)
        [Record.failure ⟨"boom", "tb"⟩, Record.success 0 4, Record.dead]).1
      (collect (fun v : Nat => v)
        [Record.failure ⟨"boom", "tb"⟩, Record.success 0 4, Record.dead]).2
      = Except.error "1 errors received\ntb" := by
  have h := (C3_aggregated_error (fun v : Nat => v) false
      [Record.failure ⟨"boom", "tb"⟩, Record.success 0 4, Record.dead]).2
    ⟨"boom", "tb"⟩ [] (by rfl)
  rw [h]
  decide

/-! ### C7: serial/debug execution -/

/-- C7 counterexample: the claim says the debug/serial path honours
the caller supplied callback exactly as the parallel path does.  It
does not: `Pool.map` forwards `callback` into its collecting loop
(lines 308-310) but calls `map_debug` without it (lines 241, 243).
With work function `id` on the single item `0` and callback `+1`, the
parallel collection yields `[1]` while the serial path yields `[0]`. -/
theorem C7_counterexample :
    assemble false (collect (fun v : Nat => v + 1) [Record.success 0 0]).1
        (collect (fun v : Nat => v + 1) [Record.success 0 0]).2
      = Except.ok [1] ∧
    map_debug (fun i : Nat => (Except.ok i : Except Captured Nat)) [0] = Except.ok [0] ∧
    (Except.ok [1] : Except String (List Nat)) ≠ Except.ok [0] := by
  refine ⟨rfl, rfl, ?_⟩
  intro h
  simp at h

/-- C7 as amended: with the debug toggle enabled (or on a pool
degraded to serial mode) the work runs serially in the caller's
context with no worker spawned; when no item raises, the result is the
work function mapped over the sequence in input order (so the ordering
contract of both `ordered` modes is met); when an item raises, the
original error of the first failing item propagates immediately with
no aggregation wrapper.  The caller supplied callback, however, is not
applied on this path (it is not forwarded to `map_debug`). -/
theorem C7_map_debug {A E V : Type} (work : A → Except E V) (g : A → V)
    (seq w1 w2 : List A) (x : A) (e : E) :
    ((∀ y ∈ seq, work y = Except.ok (g y)) → map_debug work seq = Except.ok (seq.map g)) ∧
    ((∀ y ∈ w1, work y = Except.ok (g y)) → work x = Except.error e →
      map_debug work (w1 ++ x :: w2) = Except.error e) := by
  constructor
  · intro h
    induction seq with
    | nil => rfl
    | cons a t ih =>
      have ha := h a (List.mem_cons_self a t)
      simp [map_debug, ha, ih (fun y hy => h y (List.mem_cons_of_mem a hy))]
  · intro h1 h2
    induction w1 with
    | nil => simp [map_debug, h2]
    | cons a t ih =>
      have ha := h1 a (List.mem_cons_self a t)
      simp [map_debug, ha, ih (fun y hy => h1 y (List.mem_cons_of_mem a hy))]

theorem C7_witness :
    map_debug (fun n : Nat => if n = 1 then Except.error (⟨"boom", "tb"⟩ : Captured)
        else Except.ok n) ([0] ++ 1 :: [2])
      = Except.error ⟨"boom", "tb"⟩ :=
  (C7_map_debug (fun n : Nat => if n = 1 then Except.error (⟨"boom", "tb"⟩ : Captured)
      else Except.ok n) (fun n => n) [] [0] [2] 1 ⟨"boom", "tb"⟩).2
    (by intro y hy; simp at hy; subst hy; rfl) (by rfl)

/-! ### C6: length checking in `split` -/

theorem anyAdjDiff_eq_false_iff :
    ∀ L : List Nat, anyAdjDiff L = false ↔ ∀ x ∈ L, ∀ y ∈ L, x = y := by
  intro L
  induction L with
  | nil => simp [anyAdjDiff]
  | cons a t ih =>
    cases t with
    | nil => simp [anyAdjDiff]
    | cons b u =>
      rw [show anyAdjDiff (a :: b :: u) = ((a != b) || anyAdjDiff (b :: u)) from rfl]
      rw [Bool.or_eq_false_iff, ih, bne_eq_false_iff_eq]
      constructor
      · rintro ⟨hab, hall⟩ x hx y hy
        have key : ∀ z ∈ a :: b :: u, z = a := by
          intro z hz
          rcases List.mem_cons.1 hz with hz | hz
          · exact hz
          · rw [hall z hz b (List.mem_cons_self b u), hab]
        rw [key x hx, key y hy]
      · intro hall
        have hb : b ∈ a :: b :: u := List.mem_cons_of_mem a (List.mem_cons_self b u)
        refine ⟨hall a (List.mem_cons_self a (b :: u)) b hb, ?_⟩
        intro x hx y hy
        exact hall x (List.mem_cons_of_mem a hx) y (List.mem_cons_of_mem a hy)

/-- C6 counterexample: the claim says scalar and tuple arguments are
broadcast unchanged.  In a call whose arguments are all scalars or
tuples, `split` instead raises an `IndexError` at `L = L[0]`
(line 457, `L` being empty) before producing anything: nothing is
broadcast. -/
theorem C6_counterexample :
    split_model ([SplitArg.broadcast 7] : List (SplitArg Nat Nat)) 3
        = Except.error SplitError.indexError ∧
    (Except.error SplitError.indexError :
        Except SplitError (List (SplitChunks Nat Nat)))
      ≠ Except.ok [SplitChunks.repeated 7] := by
  refine ⟨rfl, ?_⟩
  intro h
  simp at h

/-- C6 as amended: for a `split` call with at least one array-like
argument, if the array-like arguments do not all have equal length the
call fails synchronously with the length-mismatch `ValueError` before
any chunk is produced and before any worker exists; if they do all
agree, the call succeeds and every scalar/tuple argument is exempt
from the check and broadcast unchanged in place.  (A call with no
array-like argument instead fails with an `IndexError` at `L = L[0]`
before producing chunks.) -/
theorem C6_split_length_check {A B : Type} (args : List (SplitArg A B)) (n : Nat) (l0 : List A)
    (hsome : SplitArg.arraylike l0 ∈ args) :
    ((¬ ∀ x ∈ lengthsOf args, ∀ y ∈ lengthsOf args, x = y) →
      split_model args n = Except.error SplitError.lengthMismatch) ∧
    ((∀ x ∈ lengthsOf args, ∀ y ∈ lengthsOf args, x = y) →
      split_model args n = Except.ok (args.map (splitItem n)) ∧
      ∀ (k : Nat) (v : B), args[k]? = some (SplitArg.broadcast v) →
        (args.map (splitItem n))[k]? = some (SplitChunks.repeated v)) := by
  have hmem : l0.length ∈ lengthsOf args := by
    unfold lengthsOf
    exact List.mem_filterMap.2 ⟨SplitArg.arraylike l0, hsome, rfl⟩
  constructor
  · intro hne
    have hd : anyAdjDiff (lengthsOf args) = true := by
      rcases h : anyAdjDiff (lengthsOf args) with _ | _
      · exact absurd ((anyAdjDiff_eq_false_iff _).1 h) hne
      · rfl
    unfold split_model
    rw [hd]
    rfl
  · intro hall
    have hd : anyAdjDiff (lengthsOf args) = false := (anyAdjDiff_eq_false_iff _).2 hall
    constructor
    · unfold split_model
      rw [hd]
      simp only [Bool.false_eq_true, if_false]
      rcases h : lengthsOf args with _ | ⟨a, t⟩
      · rw [h] at hmem; simp at hmem
      · rfl
    · intro k v hk
      rw [List.getElem?_map, hk]
      rfl

theorem C6_witness :
    split_model ([SplitArg.arraylike [1, 2], SplitArg.broadcast 7] : List (SplitArg Nat Nat)) 2
        = Except.ok [SplitChunks.chunks [[1], [2]], SplitChunks.repeated 7] := by
  have h := ((C6_split_length_check
      ([SplitArg.arraylike [1, 2], SplitArg.broadcast 7] : List (SplitArg Nat Nat)) 2
      [1, 2] (by decide)).2 (by decide)).1
  rw [h]
  decide

/-! ### Bit smearing lemmas for `__round_to_power_of_two` -/

theorem smear_stage (m x k : Nat)
    (hx : ∀ j, (x.testBit j = true ↔ ∃ d, d < k ∧ m.testBit (j + d) = true)) :
    ∀ j, ((x ||| x >>> k).testBit j = true ↔ ∃ d, d < 2 * k ∧ m.testBit (j + d) = true) := by
  intro j
  rw [Nat.testBit_or, Bool.or_eq_true, Nat.testBit_shiftRight, hx j, hx (k + j)]
  constructor
  · rintro (⟨d, hd, hbit⟩ | ⟨d, hd, hbit⟩)
    · exact ⟨d, by omega, hbit⟩
    · refine ⟨k + d, by omega, ?_⟩
      rw [show j + (k + d) = k + j + d by omega]
      exact hbit
  · rintro ⟨d, hd, hbit⟩
    by_cases hdk : d < k
    · exact Or.inl ⟨d, hdk, hbit⟩
    · refine Or.inr ⟨d - k, by omega, ?_⟩
      rw [show k + j + (d - k) = j + d by omega]
      exact hbit

theorem smear64_testBit (m : Nat) :
    ∀ j, ((smear64 m).testBit j = true ↔ ∃ d, d < 64 ∧ m.testBit (j + d) = true) := by
  have h0 : ∀ j, (m.testBit j = true ↔ ∃ d, d < 1 ∧ m.testBit (j + d) = true) := by
    intro j
    constructor
    · intro h
      exact ⟨0, by omega, by simpa using h⟩
    · rintro ⟨d, hd, hbit⟩
      have hd0 : d = 0 := by omega
      subst hd0
      simpa using hbit
  have h1 := smear_stage m m 1 h0
  have h2 := smear_stage m _ (2 * 1) h1
  have h3 := smear_stage m _ (2 * (2 * 1)) h2
  have h4 := smear_stage m _ (2 * (2 * (2 * 1))) h3
  have h5 := smear_stage m _ (2 * (2 * (2 * (2 * 1)))) h4
  have h6 := smear_stage m _ (2 * (2 * (2 * (2 * (2 * 1))))) h5
  intro j
  exact h6 j

theorem testBit_log2_self (m : Nat) (hm : 0 < m) : m.testBit m.log2 = true := by
  rw [Nat.testBit_to_div_mod]
  have h1 : 2 ^ m.log2 ≤ m := Nat.log2_self_le (by omega)
  have h2 : m < 2 ^ (m.log2 + 1) := Nat.lt_log2_self
  have hdiv : m / 2 ^ m.log2 = 1 := by
    apply Nat.div_eq_of_lt_le
    · simpa using h1
    · rw [Nat.pow_succ] at h2
      omega
  simp [hdiv]

theorem smear64_eq (m : Nat) (hm : 0 < m) (hlt : m < 2 ^ 64) :
    smear64 m = 2 ^ (m.log2 + 1) - 1 := by
  have hb : m.log2 < 64 := (Nat.log2_lt (by omega)).2 hlt
  have hbit_b : m.testBit m.log2 = true := testBit_log2_self m hm
  have hhigh : ∀ j, m.log2 < j → m.testBit j = false := by
    intro j hj
    apply Nat.testBit_lt_two_pow
    have h2 : m < 2 ^ (m.log2 + 1) := Nat.lt_log2_self
    have h3 : 2 ^ (m.log2 + 1) ≤ 2 ^ j := Nat.pow_le_pow_right (by omega) (by omega)
    omega
  apply Nat.eq_of_testBit_eq
  intro j
  rw [Nat.testBit_two_pow_sub_one]
  rcases le_or_lt j m.log2 with hj | hj
  · have hset : (smear64 m).testBit j = true := by
      refine (smear64_testBit m j).2 ⟨m.log2 - j, by omega, ?_⟩
      rw [show j + (m.log2 - j) = m.log2 by omega]
      exact hbit_b
    rw [hset, eq_comm, decide_eq_true_eq]
    omega
  · have hclear : (smear64 m).testBit j = false := by
      rcases h : (smear64 m).testBit j with _ | _
      · rfl
      · exfalso
        obtain ⟨d, hd, hbit⟩ := (smear64_testBit m j).1 h
        rw [hhigh (j + d) (by omega)] at hbit
        exact absurd hbit (by simp)
    rw [hclear, eq_comm, decide_eq_false_iff_not]
    omega

theorem pow_of_and_pred_eq_zero :
    ∀ i : Nat, 0 < i → i &&& (i - 1) = 0 → ∃ k, i = 2 ^ k := by
  intro i
  induction i using Nat.strong_induction_on with
  | _ i ih =>
    intro hpos hand
    have hbits : ∀ j, (i.testBit j && (i - 1).testBit j) = false := by
      intro j
      rw [← Nat.testBit_and, hand]
      exact Nat.zero_testBit j
    rcases Nat.mod_two_eq_zero_or_one i with hp | hp
    · have hm0 : 0 < i / 2 := by omega
      have hstep : ∀ j, ((i / 2 &&& (i / 2 - 1)).testBit j) = false := by
        intro j
        rw [Nat.testBit_and]
        have h := hbits (j + 1)
        rw [Nat.testBit_add_one, Nat.testBit_add_one] at h
        rwa [show (i - 1) / 2 = i / 2 - 1 by omega] at h
      have hmand : i / 2 &&& (i / 2 - 1) = 0 :=
        Nat.eq_of_testBit_eq fun j => by rw [hstep j, Nat.zero_testBit]
      obtain ⟨k, hk⟩ := ih (i / 2) (by omega) hm0 hmand
      refine ⟨k + 1, ?_⟩
      rw [Nat.pow_succ]
      omega
    · rcases Nat.eq_zero_or_pos (i / 2) with hm0 | hm0
      · exact ⟨0, by omega⟩
      · exfalso
        have hb : (i / 2).testBit (i / 2).log2 = true := testBit_log2_self _ hm0
        have h := hbits ((i / 2).log2 + 1)
        rw [Nat.testBit_add_one, Nat.testBit_add_one] at h
        rw [show (i - 1) / 2 = i / 2 by omega, hb] at h
        simp at h

/-! ### C9: chunk count of `argsort` -/

/-- C9 counterexample: the claim states that
`__round_to_power_of_two` returns the least power of two greater than
or equal to its argument for every positive integer.  Python integers
are unbounded, but the smearing stops at the `>> 32` shift, so it only
covers 64-bit values: at `i = 2**64 + 1` (whose least enclosing power
of two is `2**65`) the function returns `2**65 - 1`, which is not
`2**65` (indeed not a power of two). -/
theorem C9_counterexample :
    round_to_power_of_two (2 ^ 64 + 1) = 2 ^ 65 - 1 ∧
    round_to_power_of_two (2 ^ 64 + 1) ≠ 2 ^ 65 := by
  constructor <;> decide

/-- C9 as amended: whenever the effective parallelism exceeds 1,
`argsort` partitions the data into `__round_to_power_of_two(ncpu) * 4`
chunks, and for every positive `i ≤ 2**64` (which covers every
realistic worker count; the function misbehaves only beyond 64 bits)
`__round_to_power_of_two` returns the least power of two greater than
or equal to `i`. -/
theorem C9_round_power (ncpu i : Nat) (h1 : 0 < i) (h2 : i ≤ 2 ^ 64) :
    (1 < ncpu → argsort_nchunks ncpu = some (round_to_power_of_two ncpu * 4)) ∧
    (∃ k, round_to_power_of_two i = 2 ^ k) ∧
    i ≤ round_to_power_of_two i ∧
    ∀ p k, p = 2 ^ k → i ≤ p → round_to_power_of_two i ≤ p := by
  refine ⟨fun hn => by rw [argsort_nchunks, if_neg (by omega)], ?_⟩
  by_cases hand : i &&& (i - 1) = 0
  · have hr : round_to_power_of_two i = i := by
      rw [round_to_power_of_two, if_neg (by omega), if_pos hand]
    obtain ⟨k, hk⟩ := pow_of_and_pred_eq_zero i h1 hand
    exact ⟨⟨k, by rw [hr, hk]⟩, by omega, fun p k2 hp hip => by rw [hr]; omega⟩
  · have hne1 : i ≠ 1 := by
      intro h
      subst h
      exact hand (by decide)
    have hr : round_to_power_of_two i = smear64 (i - 1) + 1 := by
      rw [round_to_power_of_two, if_neg (by omega), if_neg hand]
    have hp64 : 0 < (2:Nat) ^ 64 := Nat.pow_pos (by omega)
    have hm0 : 0 < i - 1 := by omega
    have hmlt : i - 1 < 2 ^ 64 := by omega
    have hs := smear64_eq (i - 1) hm0 hmlt
    have hpow_pos : 0 < (2:Nat) ^ ((i - 1).log2 + 1) := Nat.pow_pos (by omega)
    have hrr : round_to_power_of_two i = 2 ^ ((i - 1).log2 + 1) := by
      rw [hr, hs]
      omega
    have hup : i - 1 < 2 ^ ((i - 1).log2 + 1) := Nat.lt_log2_self
    have hlow : 2 ^ (i - 1).log2 ≤ i - 1 := Nat.log2_self_le (by omega)
    refine ⟨⟨(i - 1).log2 + 1, hrr⟩, by rw [hrr]; omega, ?_⟩
    intro p k hp hip
    subst hp
    rw [hrr]
    have hbk : (i - 1).log2 < k := by
      by_contra hbk
      push_neg at hbk
      have hkk : (2:Nat) ^ k ≤ 2 ^ (i - 1).log2 := Nat.pow_le_pow_right (by omega) hbk
      omega
    exact Nat.pow_le_pow_right (by omega) (by omega)

theorem C9_witness :
    0 < 5 ∧ 5 ≤ 2 ^ 64 ∧ argsort_nchunks 5 = some 32 ∧
      5 ≤ round_to_power_of_two 5 ∧ round_to_power_of_two 5 ≤ 8 := by
  have h := C9_round_power 5 5 (by decide) (by norm_num)
  refine ⟨by decide, by norm_num, ?_, h.2.2.1, h.2.2.2 8 3 (by norm_num) (by norm_num)⟩
  have h1 := h.1 (by decide)
  rw [h1]
  decide

/-! ### C10: the module level `zipsplit` -/

/-- C10: the module level `zipsplit` body references `self`, which is
bound neither among its parameters nor at module level, so every call
raises a `NameError` on `self` before producing any chunk, while the
method `Pool.zipsplit`, whose scope binds `self`, resolves every name
of the same body. -/
theorem C10_zipsplit_name_error :
    zipsplit_module_run = Except.error "self" ∧ Pool_zipsplit_run = Except.ok () := by
  constructor <;> rfl

end Sharedmem
